import Mathlib

/-!
Shallow embedding of `packages/ark-rebalancer/ark_rebalancer.py`
(the autonomous rebalancing agent of the summer-earn-protocol repository).

The chain RPC environment is modelled by a `Chain` record: each RPC call
the script performs is a field, with `none` meaning the call raises an
exception and `some v` meaning it returns `v`.  The script's functions
`get_ark_rates` and `prepare_rebalance_data` are translated directly; the
body of the `while True:` supervisor loop is translated as the function
`cycle`, one invocation per iteration, returning the new `rate_history`
together with the observable events of the iteration (pushes, simulation
attempts, broadcast calls, sleep duration, which handler ran).
-/

/-- Contract addresses, opaque identifiers in the script. -/
abbrev Address := Nat

/-- Values returned by `rate()` (uint256, larger = better yield). -/
abbrev Rate := Nat

/-- One poll cycle's view of the chain RPC endpoint.  Each field is one of
the external calls the script makes during a cycle; `none` models the call
raising an exception. -/
structure Chain where
  /-- Result of `fleet_commander.functions.arks().call()`. -/
  arksCall : Option (List Address)
  /-- Result of `ark_contract.functions.rate().call()` for each ark. -/
  rateCall : Address → Option Rate
  /-- Result of `ark_contract.functions.totalAssets().call()` per ark. -/
  totalAssetsCall : Address → Option Nat
  /-- Result of `w3.eth.gas_price`, used by `build_transaction`. -/
  gasPrice : Option Nat
  /-- Result of `w3.eth.call(transaction)` — the pre-flight simulation. -/
  ethCall : Option Unit
  /-- Result of `w3.eth.get_transaction_count(account.address)`. -/
  nonce : Option Nat
  /-- Result of `w3.eth.send_raw_transaction(...)` — the broadcast. -/
  send : Option Nat
  /-- Result of `w3.eth.wait_for_transaction_receipt(...)`, `true` = status 1. -/
  receipt : Option Bool

/-- Insert a pair into a descending-by-rate list, before the first element
whose rate does not exceed the new pair's rate.  Building block of the
stable descending sort. -/
def insertDesc (x : Address × Rate) : List (Address × Rate) → List (Address × Rate)
  | [] => [x]
  | y :: ys => if y.2 ≤ x.2 then x :: y :: ys else y :: insertDesc x ys

/-- Model of `sorted(rates, key=lambda x: x[1], reverse=True)`: Python's `sorted` is
a stable sort, so with `reverse=True` it returns the pairs in descending
rate order with ties kept in input order.  A stable sort by a total key
order is extensionally unique, so this structural insertion sort computes
the same list. -/
def sortRatesDesc : List (Address × Rate) → List (Address × Rate)
  | [] => []
  | x :: xs => insertDesc x (sortRatesDesc xs)

/-- Model of `get_ark_rates()`.  The registry call `arks()` is *not* inside a
`try`, so its failure propagates (modelled by returning `none`).  Each
per-ark `rate()` call is inside a `try/except` that logs and skips the
ark.  The collected pairs are sorted descending by rate. -/
def get_ark_rates (c : Chain) : Option (List (Address × Rate)) :=
  match c.arksCall with
  | none => none
  | some arks =>
      some (sortRatesDesc (arks.filterMap fun a =>
        (c.rateCall a).map fun r => (a, r)))

/-- One entry of `rebalance_data`: source ark, destination ark, amount. -/
structure RebalanceInstruction where
  fromArk : Address
  toArk : Address
  amount : Nat
deriving Repr, DecidableEq

/-- The body of the `for ark, _ in sorted_rates[1:]` loop of
`prepare_rebalance_data`: read `totalAssets()` inside a `try/except`
(failure skips the ark), and emit an instruction into `top_ark` only when
the balance exceeds 100. -/
def planEntry (c : Chain) (top : Address) (p : Address × Rate) :
    Option RebalanceInstruction :=
  match c.totalAssetsCall p.1 with
  | none => none
  | some amount =>
      if amount > 100 then some ⟨p.1, top, amount⟩ else none

/-- Model of `prepare_rebalance_data(sorted_rates)`.  Empty input yields an empty
plan.  Otherwise the top-ranked ark is the destination and the loop body
`planEntry` runs over every other ranked ark. -/
def prepare_rebalance_data (c : Chain) :
    List (Address × Rate) → List RebalanceInstruction
  | [] => []
  | (top, _) :: rest => rest.filterMap (planEntry c top)

/-- Model of `collections.deque(maxlen=n).append(x)`: append on the right, evicting
from the left when the queue would exceed its capacity. -/
def dequePush (maxlen : Nat) (h : List (Address × Rate)) (x : Address × Rate) :
    List (Address × Rate) :=
  let h' := h ++ [x]
  if maxlen < h'.length then h'.drop (h'.length - maxlen) else h'

/-- Model of `len(rate_history) == 12 and all(ark == rate_history[0][0] for ark, _
in rate_history)` — the settled-leader check of the main loop (index 0 of
the deque is its oldest entry). -/
def settled (h : List (Address × Rate)) : Bool :=
  h.length == 12 && h.all fun p => p.1 == (h.headD (0, 0)).1

/-- Observable outcome of one iteration of the `while True:` loop. -/
structure CycleResult where
  /-- Value of `rate_history` after the iteration. -/
  history : List (Address × Rate)
  /-- the settled branch was entered (`prepare_rebalance_data` invoked) -/
  plannerRan : Bool
  /-- number of `w3.eth.call` simulations performed -/
  simAttempts : Nat
  /-- number of `send_raw_transaction` broadcast calls performed -/
  sends : Nat
  /-- the inner `except` printed `Transaction would fail: ...` -/
  txErrorReported : Bool
  /-- the top-level `except` handler of the loop ran -/
  caughtUnexpected : Bool
  /-- seconds slept at the end of the iteration (10 or 60) -/
  sleep : Nat
deriving Repr, DecidableEq

/-- Observable outcome of the build/simulate/sign/broadcast block
(lines 77–100 of the script), entered only with a non-empty plan. -/
structure ExecOutcome where
  /-- number of `w3.eth.call` simulations performed -/
  simAttempts : Nat
  /-- number of `send_raw_transaction` broadcast calls performed -/
  sends : Nat
  /-- the inner `except` printed `Transaction would fail: ...` -/
  txErrorReported : Bool
  /-- the exception escaped to the top-level handler -/
  caughtUnexpected : Bool
  /-- seconds slept at the end of this iteration -/
  sleep : Nat
deriving Repr, DecidableEq

/-- The Transaction Executor phase.  `build_transaction` reads
`w3.eth.gas_price` outside the inner `try`, so its failure escapes to the
top-level handler (60s).  The inner `try` covers the simulation
(`w3.eth.call`), the nonce fetch, signing, broadcast and receipt wait; any
failure there prints `Transaction would fail` and falls through to the
10s sleep.  The broadcast happens only after a successful simulation. -/
def executeBatch (c : Chain) : ExecOutcome :=
  match c.gasPrice with
  | none => ⟨0, 0, false, true, 60⟩
  | some _ =>
    match c.ethCall with
    | none => ⟨1, 0, true, false, 10⟩
    | some _ =>
      match c.nonce with
      | none => ⟨1, 0, true, false, 10⟩
      | some _ =>
        match c.send with
        | none => ⟨1, 1, true, false, 10⟩
        | some _ =>
          match c.receipt with
          | none => ⟨1, 1, true, false, 10⟩
          | some _ => ⟨1, 1, false, false, 10⟩

/-- One iteration of the main loop, given the chain's responses for this
cycle and the current `rate_history`.  Mirrors lines 63–109 of the script:
the outer `try` covers the whole body (its `except` sleeps 60s); a
successful non-empty observation pushes its top entry into the deque; the
settled check gates the planner; a non-empty plan enters the executor. -/
def cycle (c : Chain) (h : List (Address × Rate)) : CycleResult :=
  match get_ark_rates c with
  | none =>
      -- `arks()` raised: caught by the outer handler, 60s backoff
      ⟨h, false, 0, 0, false, true, 60⟩
  | some sorted_rates =>
    match sorted_rates with
    | [] =>
        -- `if sorted_rates:` is false: no push, 10s sleep
        ⟨h, false, 0, 0, false, false, 10⟩
    | top :: _ =>
      let h' := dequePush 12 h top
      if settled h' then
        let rd := prepare_rebalance_data c sorted_rates
        if rd.isEmpty then
          ⟨h', true, 0, 0, false, false, 10⟩
        else
          let e := executeBatch c
          ⟨h', true, e.simAttempts, e.sends, e.txErrorReported,
            e.caughtUnexpected, e.sleep⟩
      else
        ⟨h', false, 0, 0, false, false, 10⟩

/-- The supervisor loop run over a finite prefix of cycles, the chain's
responses for each cycle given as a list.  Returns every cycle's result:
the loop body is total (the outer `except Exception` catches everything),
so every scheduled cycle executes. -/
def run (h : List (Address × Rate)) : List Chain → List CycleResult
  | [] => []
  | c :: cs =>
      let r := cycle c h
      r :: run r.history cs

/-! ### Properties of the stable descending sort (Rate Ranker) -/

theorem insertDesc_perm (x : Address × Rate) (l : List (Address × Rate)) :
    (insertDesc x l).Perm (x :: l) := by
  induction l with
  | nil => simp [insertDesc]
  | cons y ys ih =>
      by_cases hc : y.2 ≤ x.2
      · simp [insertDesc, hc]
      · simp only [insertDesc, if_neg hc]
        exact (ih.cons y).trans (List.Perm.swap x y ys)

theorem sortRatesDesc_perm (l : List (Address × Rate)) :
    (sortRatesDesc l).Perm l := by
  induction l with
  | nil => simp [sortRatesDesc]
  | cons x xs ih =>
      exact (insertDesc_perm x (sortRatesDesc xs)).trans (ih.cons x)

theorem pairwise_insertDesc (x : Address × Rate) (l : List (Address × Rate))
    (hl : l.Pairwise fun a b => b.2 ≤ a.2) :
    (insertDesc x l).Pairwise fun a b => b.2 ≤ a.2 := by
  induction l with
  | nil => simp [insertDesc]
  | cons y ys ih =>
      rcases List.pairwise_cons.mp hl with ⟨hy, hys⟩
      by_cases hc : y.2 ≤ x.2
      · simp only [insertDesc, if_pos hc]
        refine List.pairwise_cons.mpr ⟨?_, hl⟩
        intro z hz
        rcases List.mem_cons.mp hz with hz | hz
        · exact hz ▸ hc
        · exact le_trans (hy z hz) hc
      · simp only [insertDesc, if_neg hc]
        refine List.pairwise_cons.mpr ⟨?_, ih hys⟩
        intro z hz
        have hz' := (insertDesc_perm x ys).mem_iff.mp hz
        rcases List.mem_cons.mp hz' with hz' | hz'
        · exact hz' ▸ le_of_lt (lt_of_not_le hc)
        · exact hy z hz'

theorem sortRatesDesc_pairwise (l : List (Address × Rate)) :
    (sortRatesDesc l).Pairwise fun a b => b.2 ≤ a.2 := by
  induction l with
  | nil => simp [sortRatesDesc]
  | cons x xs ih => exact pairwise_insertDesc x (sortRatesDesc xs) ih

theorem insertDesc_filter_ne (x : Address × Rate) (l : List (Address × Rate))
    (r : Rate) (hx : x.2 ≠ r) :
    (insertDesc x l).filter (fun p => p.2 == r) =
      l.filter (fun p => p.2 == r) := by
  induction l with
  | nil => simp [insertDesc, List.filter_cons, hx]
  | cons y ys ih =>
      by_cases hc : y.2 ≤ x.2
      · simp only [insertDesc, if_pos hc]
        simp [List.filter_cons, hx]
      · simp only [insertDesc, if_neg hc]
        simp only [List.filter_cons, ih]

theorem insertDesc_filter_eq (x : Address × Rate) (l : List (Address × Rate))
    (r : Rate) (hx : x.2 = r) :
    (insertDesc x l).filter (fun p => p.2 == r) =
      x :: l.filter (fun p => p.2 == r) := by
  induction l with
  | nil => simp [insertDesc, List.filter, hx]
  | cons y ys ih =>
      by_cases hc : y.2 ≤ x.2
      · simp only [insertDesc, if_pos hc]
        simp [List.filter_cons, hx]
      · have hy : y.2 ≠ r := by
          intro h
          exact hc (le_of_eq (h.trans hx.symm))
        simp only [insertDesc, if_neg hc]
        simp [List.filter_cons, hy, ih]

theorem sortRatesDesc_filter_rate (l : List (Address × Rate)) (r : Rate) :
    (sortRatesDesc l).filter (fun p => p.2 == r) =
      l.filter (fun p => p.2 == r) := by
  induction l with
  | nil => simp [sortRatesDesc]
  | cons x xs ih =>
      by_cases hx : x.2 = r
      · rw [show sortRatesDesc (x :: xs) = insertDesc x (sortRatesDesc xs) from rfl,
          insertDesc_filter_eq x _ r hx, ih]
        simp [List.filter_cons, hx]
      · rw [show sortRatesDesc (x :: xs) = insertDesc x (sortRatesDesc xs) from rfl,
          insertDesc_filter_ne x _ r hx, ih]
        simp [List.filter_cons, hx]

/-- C3: for every input list of (address, rate) pairs, the Rate Ranker's
output is sorted descending by rate, is a permutation of the input, and
pairs with equal rates keep their original relative order (for every rate
value, restricting the output to pairs of that rate gives exactly the
input's pairs of that rate in input order). -/
theorem rate_ranker_sorted_stable_perm (l : List (Address × Rate)) :
    ((sortRatesDesc l).Pairwise fun a b => b.2 ≤ a.2) ∧
    (sortRatesDesc l).Perm l ∧
    ∀ r, (sortRatesDesc l).filter (fun p => p.2 == r) =
      l.filter (fun p => p.2 == r) :=
  ⟨sortRatesDesc_pairwise l, sortRatesDesc_perm l,
    fun r => sortRatesDesc_filter_rate l r⟩

/-! ### Helper lemmas about the stability window and the cycle -/

theorem planEntry_eq_some (c : Chain) (top : Address) (p : Address × Rate)
    (instr : RebalanceInstruction) :
    planEntry c top p = some instr ↔
      ∃ v, c.totalAssetsCall p.1 = some v ∧ 100 < v ∧
        instr = ⟨p.1, top, v⟩ := by
  unfold planEntry
  rcases hta : c.totalAssetsCall p.1 with _ | v
  · simp
  · by_cases hv : 100 < v
    · simp [hv, eq_comm]
    · simp [hv]

theorem settled_iff (h : List (Address × Rate)) :
    settled h = true ↔
      (h.length = 12 ∧ ∀ p ∈ h, p.1 = (h.headD (0, 0)).1) := by
  simp [settled, List.all_eq_true]

theorem dequePush_full (h : List (Address × Rate)) (x : Address × Rate)
    (h12 : h.length = 12) :
    dequePush 12 h x = (h ++ [x]).drop 1 := by
  have hlen : (h ++ [x]).length = 13 := by simp [h12]
  simp [dequePush, hlen]

theorem dequePush_full_length (h : List (Address × Rate)) (x : Address × Rate)
    (h12 : h.length = 12) : (dequePush 12 h x).length = 12 := by
  rw [dequePush_full h x h12]
  simp [h12]

theorem headD_fst_of_map_eq (h g : List (Address × Rate))
    (hm : h.map Prod.fst = g.map Prod.fst) :
    (h.headD (0, 0)).1 = (g.headD (0, 0)).1 := by
  cases h with
  | nil =>
      cases g with
      | nil => rfl
      | cons y ys => simp at hm
  | cons x xs =>
      cases g with
      | nil => simp at hm
      | cons y ys =>
          simp only [List.map_cons, List.cons.injEq] at hm
          simpa using hm.1

theorem settled_dequePush_same (h : List (Address × Rate)) (x : Address × Rate)
    (hs : settled h = true) (hx : x.1 = (h.headD (0, 0)).1) :
    settled (dequePush 12 h x) = true := by
  obtain ⟨h12, hall⟩ := (settled_iff h).mp hs
  rw [dequePush_full h x h12, settled_iff]
  cases h with
  | nil => simp at h12
  | cons p ps =>
      have hxp : x.1 = p.1 := by simpa using hx
      have hallp : ∀ q ∈ ps, q.1 = p.1 := by
        intro q hq
        simpa using hall q (List.mem_cons_of_mem p hq)
      have hdrop : ((p :: ps) ++ [x]).drop 1 = ps ++ [x] := by simp
      rw [hdrop]
      have hmem : ∀ q ∈ ps ++ [x], q.1 = p.1 := by
        intro q hq
        rcases List.mem_append.mp hq with hq | hq
        · exact hallp q hq
        · rcases List.mem_singleton.mp hq with rfl
          exact hxp
      constructor
      · have : ps.length = 11 := by simpa using h12
        simp [this]
      · intro r hr
        have h1 : r.1 = p.1 := hmem r hr
        have h2 : ((ps ++ [x]).headD (0, 0)).1 = p.1 := by
          cases hps : ps ++ [x] with
          | nil => exact absurd hps (by simp)
          | cons q qs =>
              have hq : q ∈ ps ++ [x] := by
                rw [hps]; exact List.mem_cons_self q qs
              simpa [hps] using hmem q hq
        rw [h1, h2]

theorem cycle_hist_planner (c : Chain) (h : List (Address × Rate))
    (top : Address × Rate) (rest : List (Address × Rate))
    (hr : get_ark_rates c = some (top :: rest)) :
    (cycle c h).history = dequePush 12 h top ∧
    (cycle c h).plannerRan = settled (dequePush 12 h top) := by
  simp only [cycle, hr]
  by_cases hs : settled (dequePush 12 h top) = true
  · simp only [hs, if_true]
    by_cases he : (prepare_rebalance_data c (top :: rest)).isEmpty
    · simp [he]
    · simp [he]
  · simp [hs]

theorem executeBatch_simFail (c : Chain) (he : c.ethCall = none) :
    (executeBatch c).sends = 0 ∧
    ((executeBatch c).simAttempts = 1 →
      (executeBatch c).txErrorReported = true ∧ (executeBatch c).sleep = 10) := by
  unfold executeBatch
  rcases c.gasPrice with _ | g
  · simp
  · rw [he]
    simp

theorem executeBatch_sleep_pol (c : Chain) :
    ((executeBatch c).caughtUnexpected = true → (executeBatch c).sleep = 60) ∧
    ((executeBatch c).caughtUnexpected = false → (executeBatch c).sleep = 10) := by
  unfold executeBatch
  rcases c.gasPrice with _ | g
  · simp
  · rcases c.ethCall with _ | e
    · simp
    · rcases c.nonce with _ | n
      · simp
      · rcases c.send with _ | s
        · simp
        · rcases c.receipt with _ | r <;> simp

theorem cycle_sleep_pol (c : Chain) (h : List (Address × Rate)) :
    ((cycle c h).caughtUnexpected = true → (cycle c h).sleep = 60) ∧
    ((cycle c h).caughtUnexpected = false → (cycle c h).sleep = 10) := by
  unfold cycle
  rcases hgr : get_ark_rates c with _ | rs
  · simp
  · rcases rs with _ | ⟨top, rest⟩
    · simp
    · by_cases hs : settled (dequePush 12 h top) = true
      · simp only [hs, if_true]
        by_cases he : (prepare_rebalance_data c (top :: rest)).isEmpty
        · simp [he]
        · simpa [he] using executeBatch_sleep_pol c
      · simp [hs]

theorem cycle_history_cases (c : Chain) (h : List (Address × Rate)) :
    (cycle c h).history = h ∨
    ∃ top rest, get_ark_rates c = some (top :: rest) ∧
      (cycle c h).history = dequePush 12 h top := by
  rcases hgr : get_ark_rates c with _ | rs
  · left; simp [cycle, hgr]
  · rcases rs with _ | ⟨top, rest⟩
    · left; simp [cycle, hgr]
    · right
      exact ⟨top, rest, rfl, (cycle_hist_planner c h top rest hgr).1⟩

/-! ### Concrete cycle environments for evaluating the embedding -/

/-- Two registered arks; ark 7's rate read fails, ark 5's succeeds. -/
def wChain : Chain where
  arksCall := some [5, 7]
  rateCall := fun a => if a == 5 then some 3 else none
  totalAssetsCall := fun a => if a == 5 then some 200 else some 40
  gasPrice := some 7
  ethCall := some ()
  nonce := some 1
  send := some 2
  receipt := some true

/-- The registry call itself raises; every other call would succeed. -/
def registryFailChain : Chain where
  arksCall := none
  rateCall := fun _ => some 1
  totalAssetsCall := fun _ => some 1000
  gasPrice := some 1
  ethCall := some ()
  nonce := some 0
  send := some 0
  receipt := some true

/-- Two arks with readable rates and balances; the pre-flight simulation
(`w3.eth.call`) fails. -/
def simFailChain : Chain where
  arksCall := some [1, 2]
  rateCall := fun a => if a == 1 then some 9 else some 4
  totalAssetsCall := fun _ => some 500
  gasPrice := some 7
  ethCall := none
  nonce := some 1
  send := some 2
  receipt := some true

/-- The registry call succeeds but reports no arks at all. -/
def emptyRegistryChain : Chain where
  arksCall := some []
  rateCall := fun _ => none
  totalAssetsCall := fun _ => none
  gasPrice := some 1
  ethCall := some ()
  nonce := some 0
  send := some 0
  receipt := some true

/-! ### The claims -/

/-- C1: in every cycle whose ranked observation succeeds and is non-empty,
the top-ranked entry is pushed into the capacity-12 FIFO deque (evicting
the oldest on overflow), and the planner/executor phase runs if and only
if, after that push, the deque holds exactly 12 entries and every entry's
address equals the first (oldest) entry's address. -/
theorem stability_window_gate (c : Chain) (h : List (Address × Rate))
    (top : Address × Rate) (rest : List (Address × Rate))
    (hr : get_ark_rates c = some (top :: rest)) :
    (cycle c h).history = dequePush 12 h top ∧
    ((cycle c h).plannerRan = true ↔
      ((dequePush 12 h top).length = 12 ∧
        ∀ p ∈ dequePush 12 h top,
          p.1 = ((dequePush 12 h top).headD (0, 0)).1)) := by
  obtain ⟨h1, h2⟩ := cycle_hist_planner c h top rest hr
  rw [h2] at *
  exact ⟨h1, settled_iff (dequePush 12 h top)⟩

theorem stability_window_gate_witness :
    get_ark_rates wChain = some [(5, 3)] ∧
    ((cycle wChain []).history = dequePush 12 [] (5, 3) ∧
      ((cycle wChain []).plannerRan = true ↔
        ((dequePush 12 [] (5, 3)).length = 12 ∧
          ∀ p ∈ dequePush 12 [] (5, 3),
            p.1 = ((dequePush 12 [] (5, 3)).headD (0, 0)).1))) :=
  ⟨by decide, stability_window_gate wChain [] (5, 3) [] (by decide)⟩

/-- C2 counterexample: on a registry-call failure the Chain Reader does
not return an empty result (the exception propagates out of
`get_ark_rates`), and the cycle takes the long 60-second backoff of the
top-level handler, not the short 10-second one. -/
theorem registry_failure_cex :
    get_ark_rates registryFailChain ≠ some [] ∧
    (cycle registryFailChain []).sleep = 60 ∧
    ¬(cycle registryFailChain []).sleep = 10 := by decide

/-- C2 (amended): if the registry call fails, `get_ark_rates` propagates
the failure instead of returning an empty result, and the supervisor's
top-level handler treats the cycle as an unexpected error: the history is
left untouched and the long (60-second) backoff applies — not the short
(10-second) empty-observation backoff. -/
theorem registry_failure_long_backoff (c : Chain) (h : List (Address × Rate))
    (hf : c.arksCall = none) :
    get_ark_rates c = none ∧
    (cycle c h).caughtUnexpected = true ∧
    (cycle c h).sleep = 60 ∧
    (cycle c h).history = h := by
  have hg : get_ark_rates c = none := by simp [get_ark_rates, hf]
  refine ⟨hg, ?_, ?_, ?_⟩ <;> simp [cycle, hg]

theorem registry_failure_long_backoff_witness :
    registryFailChain.arksCall = none ∧
    (get_ark_rates registryFailChain = none ∧
      (cycle registryFailChain [(2, 2)]).caughtUnexpected = true ∧
      (cycle registryFailChain [(2, 2)]).sleep = 60 ∧
      (cycle registryFailChain [(2, 2)]).history = [(2, 2)]) :=
  ⟨rfl, registry_failure_long_backoff registryFailChain [(2, 2)] rfl⟩

/-- C10: the settled decision depends only on the address components of
the history entries — two histories whose entries agree pairwise on
addresses (but may carry arbitrary rates) give the same settled verdict. -/
theorem settled_address_only (h g : List (Address × Rate))
    (hm : h.map Prod.fst = g.map Prod.fst) :
    settled h = settled g := by
  have hlen : h.length = g.length := by
    have := congrArg List.length hm
    simpa using this
  have hhead := headD_fst_of_map_eq h g hm
  have hmap : ∀ (l : List (Address × Rate)) (A : Address),
      (l.all fun p => p.1 == A) = ((l.map Prod.fst).all fun b => b == A) := by
    intro l A
    induction l with
    | nil => rfl
    | cons x xs ih => simp [ih]
  unfold settled
  rw [hlen, hhead, hmap, hmap, hm]

theorem settled_address_only_witness :
    ([(1, 5)] : List (Address × Rate)).map Prod.fst =
      ([(1, 7)] : List (Address × Rate)).map Prod.fst ∧
    settled [(1, 5)] = settled [(1, 7)] :=
  ⟨by decide, settled_address_only [(1, 5)] [(1, 7)] (by decide)⟩

/-- C4: for a ranked observation with pairwise-distinct addresses, the
planner never emits an instruction whose amount is at most 100 or whose
source equals its destination, and when every non-leader balance reads at
most 100 (or fails to read) the plan is empty. -/
theorem planner_threshold_distinct (c : Chain) (rs : List (Address × Rate))
    (hnd : (rs.map Prod.fst).Nodup) :
    (∀ instr ∈ prepare_rebalance_data c rs,
      100 < instr.amount ∧ instr.fromArk ≠ instr.toArk) ∧
    ((∀ p ∈ rs.tail, ∀ v, c.totalAssetsCall p.1 = some v → v ≤ 100) →
      prepare_rebalance_data c rs = []) := by
  rcases rs with _ | ⟨⟨top, tr⟩, rest⟩
  · simp [prepare_rebalance_data]
  · have htop : top ∉ rest.map Prod.fst := by
      simp only [List.map_cons, List.nodup_cons] at hnd
      exact hnd.1
    constructor
    · intro instr hinstr
      simp only [prepare_rebalance_data] at hinstr
      rcases List.mem_filterMap.mp hinstr with ⟨p, hp, hfp⟩
      rcases (planEntry_eq_some c top p instr).mp hfp with ⟨v, hta, hv, rfl⟩
      refine ⟨hv, ?_⟩
      intro hfrom
      have hfrom' : p.1 = top := hfrom
      exact htop (hfrom' ▸ List.mem_map_of_mem Prod.fst hp)
    · intro hball
      simp only [prepare_rebalance_data]
      rw [List.filterMap_eq_nil_iff]
      intro p hp
      rcases hta : c.totalAssetsCall p.1 with _ | v
      · simp [planEntry, hta]
      · have hle : v ≤ 100 := hball p hp v hta
        simp [planEntry, hta, Nat.not_lt.mpr hle]

theorem planner_threshold_distinct_witness :
    (([(9, 4), (5, 3)] : List (Address × Rate)).map Prod.fst).Nodup ∧
    (∀ instr ∈ prepare_rebalance_data wChain [(9, 4), (5, 3)],
      100 < instr.amount ∧ instr.fromArk ≠ instr.toArk) :=
  ⟨by decide, (planner_threshold_distinct wChain [(9, 4), (5, 3)] (by decide)).1⟩

/-- C5: whenever the pre-flight simulation fails, no broadcast call is
made in that cycle, and when the simulation was actually attempted the
failure is reported and the cycle continues with the short 10-second
sleep. -/
theorem executor_no_broadcast_on_sim_failure (c : Chain)
    (h : List (Address × Rate)) (he : c.ethCall = none) :
    (cycle c h).sends = 0 ∧
    ((cycle c h).simAttempts = 1 →
      (cycle c h).txErrorReported = true ∧ (cycle c h).sleep = 10) := by
  unfold cycle
  rcases hgr : get_ark_rates c with _ | rs
  · simp
  · rcases rs with _ | ⟨top, rest⟩
    · simp
    · by_cases hs : settled (dequePush 12 h top) = true
      · simp only [hs, if_true]
        by_cases hre : (prepare_rebalance_data c (top :: rest)).isEmpty
        · simp [hre]
        · simpa [hre] using executeBatch_simFail c he
      · simp [hs]

theorem executor_no_broadcast_on_sim_failure_witness :
    simFailChain.ethCall = none ∧
    (cycle simFailChain (List.replicate 12 (1, 9))).sends = 0 ∧
    (cycle simFailChain (List.replicate 12 (1, 9))).simAttempts = 1 ∧
    (cycle simFailChain (List.replicate 12 (1, 9))).txErrorReported = true ∧
    (cycle simFailChain (List.replicate 12 (1, 9))).sleep = 10 :=
  ⟨rfl,
    (executor_no_broadcast_on_sim_failure simFailChain
      (List.replicate 12 (1, 9)) rfl).1,
    by decide,
    ((executor_no_broadcast_on_sim_failure simFailChain
      (List.replicate 12 (1, 9)) rfl).2 (by decide)).1,
    ((executor_no_broadcast_on_sim_failure simFailChain
      (List.replicate 12 (1, 9)) rfl).2 (by decide)).2⟩

/-- C6: the supervisor loop never terminates on a single cycle's failure:
every scheduled cycle produces a result (the body is total because the
top-level handler catches every exception), a cycle whose exception
reached the top-level handler sleeps 60 seconds, and every other cycle
sleeps 10 seconds. -/
theorem supervisor_never_terminates (cs : List Chain)
    (h : List (Address × Rate)) :
    (run h cs).length = cs.length ∧
    ∀ r ∈ run h cs,
      (r.caughtUnexpected = true → r.sleep = 60) ∧
      (r.caughtUnexpected = false → r.sleep = 10) := by
  induction cs generalizing h with
  | nil => simp [run]
  | cons c cs ih =>
      constructor
      · simp only [run, List.length_cons]
        rw [(ih (cycle c h).history).1]
      · intro r hr
        simp only [run] at hr
        rcases List.mem_cons.mp hr with rfl | hr
        · exact cycle_sleep_pol c h
        · exact (ih (cycle c h).history).2 r hr

theorem supervisor_never_terminates_witness :
    (run [] [registryFailChain, wChain]).length = 2 ∧
    (cycle registryFailChain []).sleep = 60 :=
  ⟨(supervisor_never_terminates [registryFailChain, wChain] []).1,
    ((supervisor_never_terminates [registryFailChain, wChain] []).2
      (cycle registryFailChain []) (by decide)).1 (by decide)⟩

theorem cycle_history_length_full (c : Chain) (h : List (Address × Rate))
    (h12 : h.length = 12) : (cycle c h).history.length = 12 := by
  rcases cycle_history_cases c h with hh | ⟨top, rest, _, hh⟩
  · rw [hh, h12]
  · rw [hh]
    exact dequePush_full_length h top h12

theorem run_history_full (cs : List Chain) (h : List (Address × Rate))
    (h12 : h.length = 12) : ∀ r ∈ run h cs, r.history.length = 12 := by
  induction cs generalizing h with
  | nil => simp [run]
  | cons c cs ih =>
      intro r hr
      simp only [run] at hr
      rcases List.mem_cons.mp hr with rfl | hr
      · exact cycle_history_length_full c h h12
      · exact ih (cycle c h).history (cycle_history_length_full c h h12) r hr

/-- C7: a single target's failed read never aborts the batch: whenever the
registry call succeeds, the ranked result exists, excludes exactly the
targets whose rate read failed and keeps every target whose rate read
succeeded; and an instruction is in the plan precisely for the non-leader
targets whose balance read succeeded with a value above the threshold —
so a failed balance read skips only that target. -/
theorem per_target_failure_local (c : Chain) (arks : List Address)
    (ha : c.arksCall = some arks) :
    (∃ res, get_ark_rates c = some res ∧
      (∀ a ∈ arks, c.rateCall a = none → a ∉ res.map Prod.fst) ∧
      (∀ a ∈ arks, ∀ r, c.rateCall a = some r → (a, r) ∈ res)) ∧
    (∀ (top : Address × Rate) (rest : List (Address × Rate))
        (instr : RebalanceInstruction),
      instr ∈ prepare_rebalance_data c (top :: rest) ↔
        ((∃ r, (instr.fromArk, r) ∈ rest) ∧
          c.totalAssetsCall instr.fromArk = some instr.amount ∧
          100 < instr.amount ∧ instr.toArk = top.1)) := by
  constructor
  · refine ⟨sortRatesDesc (arks.filterMap fun a =>
      (c.rateCall a).map fun r => (a, r)), ?_, ?_, ?_⟩
    · simp [get_ark_rates, ha]
    · intro a hain hnone hmem
      rcases List.mem_map.mp hmem with ⟨p, hp, hpa⟩
      have hp' : p ∈ arks.filterMap fun b =>
          (c.rateCall b).map fun r => (b, r) :=
        (sortRatesDesc_perm _).subset hp
      rcases List.mem_filterMap.mp hp' with ⟨b, _, hfb⟩
      rcases hrb : c.rateCall b with _ | r
      · rw [hrb] at hfb
        simp at hfb
      · rw [hrb] at hfb
        simp only [Option.map_some'] at hfb
        have hbp : (b, r) = p := Option.some.inj hfb
        have hba : b = a := by rw [← hpa, ← hbp]
        rw [hba, hnone] at hrb
        cases hrb
    · intro a _ r hr
      have hmem : (a, r) ∈ arks.filterMap fun b =>
          (c.rateCall b).map fun s => (b, s) := by
        refine List.mem_filterMap.mpr ⟨a, ?_, ?_⟩
        · assumption
        · rw [hr]
          rfl
      exact (sortRatesDesc_perm _).symm.subset hmem
  · intro top rest instr
    rcases top with ⟨ta, tr⟩
    simp only [prepare_rebalance_data]
    constructor
    · intro hmem
      rcases List.mem_filterMap.mp hmem with ⟨p, hp, hfp⟩
      rcases (planEntry_eq_some c ta p instr).mp hfp with ⟨v, hta, hv, rfl⟩
      exact ⟨⟨p.2, hp⟩, hta, hv, rfl⟩
    · rintro ⟨⟨r, hr⟩, hta, hv, htop⟩
      refine List.mem_filterMap.mpr ⟨(instr.fromArk, r), hr, ?_⟩
      refine (planEntry_eq_some c ta (instr.fromArk, r) instr).mpr
        ⟨instr.amount, hta, hv, ?_⟩
      rcases instr with ⟨f, t, a⟩
      simp only at htop
      rw [htop]

theorem per_target_failure_local_witness :
    wChain.arksCall = some [5, 7] ∧
    (⟨5, 9, 200⟩ : RebalanceInstruction) ∈
      prepare_rebalance_data wChain [(9, 4), (5, 3)] :=
  ⟨rfl,
    ((per_target_failure_local wChain [5, 7] rfl).2 (9, 4) [(5, 3)]
        ⟨5, 9, 200⟩).mpr
      ⟨⟨3, by decide⟩, by decide, by decide, rfl⟩⟩

/-- C8: an empty Rate Ranker input yields an empty ranked output, and an
empty ranked output leaves the stability window untouched (no push), runs
no planner, attempts no simulation, broadcasts nothing, and sleeps the
short interval. -/
theorem empty_observation_roundtrip (c : Chain) (h : List (Address × Rate))
    (he : get_ark_rates c = some []) :
    sortRatesDesc [] = [] ∧
    (cycle c h).history = h ∧
    (cycle c h).plannerRan = false ∧
    (cycle c h).simAttempts = 0 ∧
    (cycle c h).sends = 0 ∧
    (cycle c h).sleep = 10 := by
  refine ⟨rfl, ?_, ?_, ?_, ?_, ?_⟩ <;> simp [cycle, he]

theorem empty_observation_roundtrip_witness :
    get_ark_rates emptyRegistryChain = some [] ∧
    (sortRatesDesc [] = [] ∧
      (cycle emptyRegistryChain [(3, 3)]).history = [(3, 3)] ∧
      (cycle emptyRegistryChain [(3, 3)]).plannerRan = false ∧
      (cycle emptyRegistryChain [(3, 3)]).simAttempts = 0 ∧
      (cycle emptyRegistryChain [(3, 3)]).sends = 0 ∧
      (cycle emptyRegistryChain [(3, 3)]).sleep = 10) :=
  ⟨by decide, empty_observation_roundtrip emptyRegistryChain [(3, 3)] (by decide)⟩

/-- C9: once the history holds 12 entries its length stays exactly 12 in
this and every subsequent cycle — no path clears or shrinks it, not even a
cycle that executed a rebalance — and if the observation stays successful
with the same leader on top while the window is settled, the planner runs
again in the very next cycle. -/
theorem history_stays_full (c : Chain) (h : List (Address × Rate))
    (h12 : h.length = 12) :
    (cycle c h).history.length = 12 ∧
    (∀ cs, ∀ r ∈ run h cs, r.history.length = 12) ∧
    (∀ top rest, get_ark_rates c = some (top :: rest) →
      settled h = true → top.1 = (h.headD (0, 0)).1 →
      (cycle c h).plannerRan = true) := by
  refine ⟨cycle_history_length_full c h h12,
    fun cs => run_history_full cs h h12, ?_⟩
  intro top rest hgr hs hx
  rw [(cycle_hist_planner c h top rest hgr).2]
  exact settled_dequePush_same h top hs hx

theorem history_stays_full_witness :
    (List.replicate 12 ((1 : Address), (9 : Rate))).length = 12 ∧
    (cycle simFailChain (List.replicate 12 (1, 9))).history.length = 12 ∧
    (cycle simFailChain (List.replicate 12 (1, 9))).plannerRan = true :=
  ⟨by decide,
    (history_stays_full simFailChain (List.replicate 12 (1, 9)) (by decide)).1,
    (history_stays_full simFailChain (List.replicate 12 (1, 9)) (by decide)).2.2
      (1, 9) [(2, 4)] (by decide) (by decide) (by decide)⟩
